import Mathlib

/-!
Verification of the AI-Builder structured change application engine.

The Python sources are shallowly embedded: file contents are `String`s
(or `List Char` where byte-level reasoning is needed), line lists are
`List String`, and the filesystem touched by the orchestrator is an
explicit association-list state.  Python string primitives used by the
code (`in`, `str.replace`, `str.split`, `str.splitlines`, `str.strip`)
are embedded as executable Lean functions with the same semantics.
-/

set_option autoImplicit false

namespace AIBuilder

/-- Python whitespace class used by `str.strip` and the regex class `\s`
(restricted to the ASCII members, which are the only ones the payloads use). -/
def isPyWs (c : Char) : Bool :=
  c = ' ' || c = '\t' || c = '\n' || c = '\r' || c = '\x0b' || c = '\x0c'

/-- `leadsWith pat s` is true when `pat` occurs at the very start of `s`
(the matching primitive underlying all substring searches below). -/
def leadsWith : List Char → List Char → Bool
  | [], _ => true
  | _ :: _, [] => false
  | a :: as, b :: bs => a = b && leadsWith as bs

/-- Python `pat in s` on strings: some position of `s` starts with `pat`. -/
def listContains (pat s : List Char) : Bool :=
  (List.range (s.length + 1)).any (fun i => leadsWith pat (s.drop i))

/-- Number of positions of `s` at which `pat` occurs (used to state
"contains exactly one occurrence"). -/
def countOcc (pat s : List Char) : Nat :=
  ((List.range (s.length + 1)).filter (fun i => leadsWith pat (s.drop i))).length

/-- Index of the first occurrence of `pat` in `s`, if any. -/
def firstIdx (pat s : List Char) : Option Nat :=
  (List.range (s.length + 1)).find? (fun i => leadsWith pat (s.drop i))

/-- Python `s in line` for `String`s. -/
def strContains (needle hay : String) : Bool :=
  listContains needle.toList hay.toList

/-- Worker for Python `str.split(sep)` with a non-empty separator; the fuel
argument only bounds the recursion and is always supplied large enough. -/
def splitFuel (sep : List Char) : Nat → List Char → List (List Char)
  | 0, s => [s]
  | f + 1, s =>
    match firstIdx sep s with
    | none => [s]
    | some i => s.take i :: splitFuel sep f (s.drop (i + sep.length))

/-- Python `s.split(sep)` for a non-empty separator `sep` (Python raises on an
empty separator, so that case never arises from the embedded call sites). -/
def pySplit (sep s : List Char) : List (List Char) :=
  splitFuel sep (s.length + 1) s

/-- Worker for Python `str.replace` with a non-empty pattern: scan left to
right, replacing non-overlapping occurrences. -/
def replaceFuel (pat rep : List Char) : Nat → List Char → List Char
  | 0, s => s
  | _ + 1, [] => []
  | f + 1, c :: cs =>
    if leadsWith pat (c :: cs) then rep ++ replaceFuel pat rep f ((c :: cs).drop pat.length)
    else c :: replaceFuel pat rep f cs

/-- Python `s.replace(pat, rep)`: for an empty pattern Python inserts `rep`
at every gap; otherwise non-overlapping left-to-right replacement. -/
def replacePy (pat rep s : List Char) : List Char :=
  match pat with
  | [] => rep ++ s.flatMap (fun c => c :: rep)
  | _ :: _ => replaceFuel pat rep s.length s

/-- Python `"\n".join(lines)` producing the raw characters. -/
def joinNlChars : List String → List Char
  | [] => []
  | [l] => l.toList
  | l :: l' :: ls => l.toList ++ '\n' :: joinNlChars (l' :: ls)

/-- The file text written by the engines: `"\n".join(lines) + "\n"`. -/
def writeLines (ls : List String) : String :=
  (joinNlChars ls).asString ++ "\n"

/-- Worker for Python `str.splitlines` (the payloads only use `\n` line ends). -/
def splitlinesGo : List Char → List Char → List String
  | [], acc => if acc.isEmpty then [] else [acc.reverse.asString]
  | c :: cs, acc =>
    if c = '\n' then acc.reverse.asString :: splitlinesGo cs []
    else splitlinesGo cs (c :: acc)

/-- Python `s.splitlines()`: split at line breaks, no trailing empty line. -/
def pySplitlines (s : String) : List String :=
  splitlinesGo s.toList []

/-- Python `str.strip()`: remove leading and trailing whitespace. -/
def pyStrip (l : List Char) : List Char :=
  ((l.dropWhile isPyWs).reverse.dropWhile isPyWs).reverse

/-! ## file_mod_engine.py -/

/-- Loop body of `file_mod_engine.replace_between_markers`: walk the lines with
the `inside_block` flag; a line containing the start marker is kept and the new
content spliced after it, lines inside the block are dropped until a line
containing the end marker, which is kept. -/
def rbmGo (startMarker endMarker : String) (newContent : List String) :
    List String → Bool → List String
  | [], _ => []
  | l :: ls, inside =>
    if strContains startMarker l then
      l :: (newContent ++ rbmGo startMarker endMarker newContent ls true)
    else if strContains endMarker l && inside then
      l :: rbmGo startMarker endMarker newContent ls false
    else if !inside then
      l :: rbmGo startMarker endMarker newContent ls inside
    else
      rbmGo startMarker endMarker newContent ls inside

/-- `file_mod_engine.replace_between_markers(lines, start_marker, end_marker, new_content)`. -/
def replaceBetweenMarkers (lines : List String) (startMarker endMarker : String)
    (newContent : List String) : List String :=
  rbmGo startMarker endMarker newContent lines false

/-- `file_mod_engine.apply_modifications`, legacy `append` action:
`new_lines = [line for line in content if line not in lines]; lines.extend(new_lines)`. -/
def legacyAppend (lines content : List String) : List String :=
  lines ++ content.filter (fun l => !(lines.contains l))

/-- `file_mod_engine.apply_modifications`, legacy `prepend` action:
`new_lines = [line for line in content if line not in lines]; lines = new_lines + lines`. -/
def legacyPrepend (lines content : List String) : List String :=
  content.filter (fun l => !(lines.contains l)) ++ lines

/-- `file_mod_engine.regex_replace(lines, pattern, replacement)`: the compiled
pattern's substitution is applied independently to each physical line.  The
Python `re` engine is external; it enters the embedding as the function
`reSub pattern replacement line`. -/
def regexReplace (reSub : String → String → String → String)
    (pattern replacement : String) (lines : List String) : List String :=
  lines.map (fun line => reSub pattern replacement line)

/-- `file_mod_engine.replace_line_containing(lines, match_substring, replacement_line)`. -/
def replaceLineContaining (matchSubstring replacementLine : String)
    (lines : List String) : List String :=
  lines.map (fun line => if strContains matchSubstring line then replacementLine else line)

/-! ## ai_builder.py — FileModifier and its filesystem state -/

/-- The custom-format actions recognised by `FileParser._parse_actions`. -/
inductive PAction where
  | createFile (fileContent : List String)
  | removeFile
  | replaceFile (fileContent : List String)
  | replaceSection (originalContent : String) (fileContent : List String)
  deriving DecidableEq, Repr

/-- The filesystem slice the orchestrator touches: file contents keyed by their
path string, plus the set of directories that exist. -/
structure FS where
  files : List (String × String)
  dirs : List String
  deriving DecidableEq, Repr

/-- Write (create or overwrite) a file. -/
def setFile (fs : FS) (p c : String) : FS :=
  ⟨(p, c) :: fs.files.filter (fun kv => kv.1 != p), fs.dirs⟩

/-- `os.remove`. -/
def delFile (fs : FS) (p : String) : FS :=
  ⟨fs.files.filter (fun kv => kv.1 != p), fs.dirs⟩

/-- Components of a path split at the separator. -/
def pathComps (p : String) : List String :=
  (pySplit ['/'] p.toList).map List.asString

/-- The chain of directories `os.makedirs(os.path.dirname(p))` creates for a
file path `p`: every proper prefix of its component list, joined back up.
Empty when `os.path.dirname(p)` is empty (the code skips `makedirs` then). -/
def ancestors (p : String) : List String :=
  (List.range (pathComps p).dropLast.length).map
    (fun k => String.intercalate "/" ((pathComps p).dropLast.take (k + 1)))

/-- `os.makedirs(os.path.dirname(filepath), exist_ok=True)`: add the missing
ancestor directories of `p`; files are untouched. -/
def addDirs (fs : FS) (p : String) : FS :=
  ⟨fs.files, fs.dirs ++ (ancestors p).filter (fun d => !(fs.dirs.contains d))⟩

/-- Pure core of `FileModifier._replace_section`: if `original_content` occurs
in the file text, replace (Python `str.replace`) and succeed, else fail
without producing new content. -/
def replaceSectionPure (text orig : List Char) (newLines : List String) :
    Option (List Char) :=
  if listContains orig text then some (replacePy orig (joinNlChars newLines) text)
  else none

/-- `FileModifier._replace_section` at the `String` level. -/
def replaceSectionStr (text orig : String) (newLines : List String) : Option String :=
  (replaceSectionPure text.toList orig.toList newLines).map List.asString

/-- `FileModifier._apply_action(filepath, action)`: parent directories are
created first, then the dispatch on the action type.  `Except.error` models an
exception escaping `_apply_action` (re-raised by its handler); the only such
source in the embedded fragment is `open(filepath, 'r')` inside
`_replace_section` when the file does not exist. -/
def applyAction (fs : FS) (p : String) (a : PAction) : FS × Except Unit Bool :=
  match a with
  | .createFile content => (setFile (addDirs fs p) p (writeLines content), .ok true)
  | .removeFile =>
    match (addDirs fs p).files.lookup p with
    | some _ => (delFile (addDirs fs p) p, .ok true)
    | none => (addDirs fs p, .ok false)
  | .replaceFile content => (setFile (addDirs fs p) p (writeLines content), .ok true)
  | .replaceSection orig content =>
    match (addDirs fs p).files.lookup p with
    | none => (addDirs fs p, .error ())
    | some text =>
      match replaceSectionStr text orig content with
      | some newText => (setFile (addDirs fs p) p newText, .ok true)
      | none => (addDirs fs p, .ok false)

/-- `shutil.copy2(backup_filepath, filepath)` guarded by
`os.path.exists(backup_filepath)`: the restore step of the exception handler. -/
def restoreBak (fs : FS) (p bak : String) : FS :=
  match fs.files.lookup bak with
  | some b => setFile fs p b
  | none => fs

/-- One iteration of the action loop of `FileModifier.apply_modifications`
(non-dry-run): success keeps the state, a `False` return records the action as
incomplete, an exception records it and restores the backup if one exists. -/
def applyOneAction (p bak : String) (st : FS × List (String × PAction)) (a : PAction) :
    FS × List (String × PAction) :=
  match applyAction st.1 p a with
  | (fs', .ok true) => (fs', st.2)
  | (fs', .ok false) => (fs', st.2 ++ [(p, a)])
  | (fs', .error _) => (restoreBak fs' p bak, st.2 ++ [(p, a)])

/-- One iteration of the outer loop of `FileModifier.apply_modifications`: back
up the file if it exists (backup path `filepath + ".bak"`), then fold the
action loop over this FileChange's actions.  In a dry run nothing is touched
and nothing is recorded. -/
def applyChange (dryRun : Bool) (st : FS × List (String × PAction))
    (ch : String × List PAction) : FS × List (String × PAction) :=
  if dryRun then st
  else
    ch.2.foldl (applyOneAction ch.1 (ch.1 ++ ".bak"))
      (match st.1.files.lookup ch.1 with
       | some c => setFile st.1 (ch.1 ++ ".bak") c
       | none => st.1, st.2)

/-- `FileModifier.apply_modifications(changes, dry_run)`: returns the final
filesystem and the list of incomplete actions, in recording order. -/
def applyModifications (changes : List (String × List PAction)) (dryRun : Bool)
    (fs : FS) : FS × List (String × PAction) :=
  changes.foldl (applyChange dryRun) (fs, [])

/-! ## ai_builder.py — FileParser

The parsing regexes are deterministic (their lazy groups are bounded by
literal tags and the character classes cannot backtrack), so each is embedded
as the explicit left-to-right scan it performs. -/

/-- The literal `[aibuilder_change` opening a change envelope. -/
def changeTag : List Char := "[aibuilder_change".toList

/-- The literal `[aibuilder_action` opening an action envelope. -/
def actionTag : List Char := "[aibuilder_action".toList

/-- The literal `[aibuilder_end_action]` closing an action envelope. -/
def endActionTag : List Char := "[aibuilder_end_action]".toList

/-- The reasoning-closing sentinel. -/
def thinkTag : List Char := "</think>".toList

/-- The attribute part of the envelope-opening regexes,
`\s+ attr \s* = \s* "([^"]+)" ]`: returns the quoted value and the characters
after the closing `]`, or `none` when the header does not match here. -/
def parseAttrHeader (attr s : List Char) : Option (List Char × List Char) :=
  match s with
  | [] => none
  | c :: _ =>
    if !isPyWs c then none
    else
      let s1 := s.dropWhile isPyWs
      if leadsWith attr s1 then
        match (s1.drop attr.length).dropWhile isPyWs with
        | '=' :: s3 =>
          match s3.dropWhile isPyWs with
          | '"' :: s5 =>
            match s5.dropWhile (fun c => c ≠ '"') with
            | '"' :: ']' :: s7 =>
              if (s5.takeWhile (fun c => c ≠ '"')).isEmpty then none
              else some (s5.takeWhile (fun c => c ≠ '"'), s7)
            | _ => none
          | _ => none
        | _ => none
      else none

/-- `re.finditer` of the change-block pattern
`\[aibuilder_change\s+file\s*=\s*"([^"]+)"\](.*?)(?=\[aibuilder_change|$)`:
scan to each `[aibuilder_change`, parse the header, and take the lazy body up
to the next `[aibuilder_change` or the end; a failed header resumes the scan
one character further on, as the regex engine does. -/
def findChangesFuel : Nat → List Char → List (List Char × List Char)
  | 0, _ => []
  | f + 1, s =>
    match firstIdx changeTag s with
    | none => []
    | some i =>
      match parseAttrHeader "file".toList (s.drop (i + changeTag.length)) with
      | none => findChangesFuel f (s.drop (i + 1))
      | some (name, rest) =>
        match firstIdx changeTag rest with
        | none => [(name, rest)]
        | some j => (name, rest.take j) :: findChangesFuel f (rest.drop j)

/-- `re.finditer` of the action pattern
`\[aibuilder_action\s+type\s*=\s*"([^"]+)"\](.*?)\[aibuilder_end_action\]`:
the lazy body ends at the first closing tag; if no closing tag follows a
candidate, none follows any later candidate either, so the scan is done. -/
def findActionsFuel : Nat → List Char → List (List Char × List Char)
  | 0, _ => []
  | f + 1, s =>
    match firstIdx actionTag s with
    | none => []
    | some i =>
      match parseAttrHeader "type".toList (s.drop (i + actionTag.length)) with
      | none => findActionsFuel f (s.drop (i + 1))
      | some (ty, rest) =>
        match firstIdx endActionTag rest with
        | none => []
        | some j => (ty, rest.take j) :: findActionsFuel f (rest.drop (j + endActionTag.length))

/-- `re.search(r'\[open\](.*?)\[close\]', content, re.DOTALL)`: the text
between the first opening tag and the first closing tag after it (a first
opening tag with no closing tag after it means no later start can match
either, so the search fails). -/
def searchBetween (openTag closeTag s : List Char) : Option (List Char) :=
  match firstIdx openTag s with
  | none => none
  | some i =>
    match firstIdx closeTag (s.drop (i + openTag.length)) with
    | none => none
    | some j => some ((s.drop (i + openTag.length)).take j)

/-- A field value as the parser post-processes it: `.strip().split('\n')`. -/
def fieldLines (l : List Char) : List String :=
  (pySplit ['\n'] (pyStrip l)).map List.asString

/-- Dispatch of `FileParser._parse_actions` on the action type, including the
nested field searches of `_parse_create_action`, `_parse_replace_file_action`
and `_parse_replace_section_action`; `none` is an action that is dropped
(missing required field) and unknown types are skipped by the caller. -/
def buildAction (ty body : List Char) : Option PAction :=
  if ty = "create_file".toList then
    match searchBetween "[aibuilder_file_content]".toList
        "[aibuilder_end_file_content]".toList body with
    | some c => some (.createFile (fieldLines c))
    | none => none
  else if ty = "remove_file".toList then some .removeFile
  else if ty = "replace_file".toList then
    match searchBetween "[aibuilder_file_content]".toList
        "[aibuilder_end_file_content]".toList body with
    | some c => some (.replaceFile (fieldLines c))
    | none => none
  else if ty = "replace_section".toList then
    match searchBetween "[aibuilder_original_content]".toList
        "[aibuilder_end_original_content]".toList body,
      searchBetween "[aibuilder_file_content]".toList
        "[aibuilder_end_file_content]".toList body with
    | some o, some c =>
      some (.replaceSection (pyStrip o).asString (fieldLines c))
    | _, _ => none
  else none

/-- `FileParser._parse_actions(content)`. -/
def parseActionsList (s : List Char) : List PAction :=
  (findActionsFuel (s.length + 1) s).filterMap (fun tb => buildAction tb.1 tb.2)

/-- The tail of `FileParser.parse_custom_format` after the sentinel cut:
`re.sub(r'^.*?\[aibuilder_change', '[aibuilder_change', content, re.DOTALL)`
keeps the text from the first `[aibuilder_change` on (the matched prefix is
replaced by the tag itself), then the change blocks are scanned. -/
def parseFromCut (c1 : List Char) : List (String × List PAction) :=
  let c2 := match firstIdx changeTag c1 with
            | some i => c1.drop i
            | none => c1
  (findChangesFuel (c2.length + 1) c2).map
    (fun nb => (nb.1.asString, parseActionsList nb.2))

/-- The sentinel-stripping step
`if "</think>" in content: content = content.split("</think>")[1]`. -/
def thinkCut (c : List Char) : List Char :=
  if listContains thinkTag c then ((pySplit thinkTag c).drop 1).headD [] else c

/-- `FileParser.parse_custom_format(content)`: the resulting ChangeSet as a
list of (file, actions) in payload order. -/
def parseCustomFormat (content : String) : List (String × List PAction) :=
  parseFromCut (thinkCut content.toList)

/-! ## ai_builder/ai_builder.py and code_utility.py — split_patch_file -/

/-- The `diff --git` fragment boundary. -/
def sepDiff : List Char := "diff --git".toList

/-- `split_patch_file`: `patches = content.split('diff --git')`, the element
before the first boundary is skipped, and every other element is written out
as `f"diff --git{patch}"`.  The returned list is the written fragments in
order. -/
def splitPatchFile (content : List Char) : List (List Char) :=
  ((pySplit sepDiff content).drop 1).map (fun p => sepDiff ++ p)

/-! ## Helper lemmas -/

theorem leadsWith_iff (p s : List Char) : leadsWith p s = true ↔ ∃ t, s = p ++ t := by
  induction p generalizing s with
  | nil => simp [leadsWith]
  | cons a as ih =>
    cases s with
    | nil => simp [leadsWith]
    | cons b bs =>
      simp only [leadsWith, Bool.and_eq_true, decide_eq_true_eq, ih bs]
      constructor
      · rintro ⟨rfl, t, rfl⟩; exact ⟨t, rfl⟩
      · rintro ⟨t, ht⟩
        injection ht with h1 h2
        exact ⟨h1.symm, t, h2⟩

theorem leadsWith_nil_false (a : Char) (p : List Char) :
    leadsWith (a :: p) [] = false := rfl

theorem listContains_mid (x sep y : List Char) :
    listContains sep (x ++ sep ++ y) = true := by
  unfold listContains
  rw [List.any_eq_true]
  refine ⟨x.length, List.mem_range.mpr ?_, ?_⟩
  · simp only [List.length_append]
    omega
  · rw [List.append_assoc, List.drop_left, leadsWith_iff]
    exact ⟨y, rfl⟩

end AIBuilder

namespace AIBuilder

/-- Membership form of the Boolean containment test used by the legacy
append/prepend dedup. -/
theorem contains_eq_mem (lines : List String) (l : String) :
    lines.contains l = decide (l ∈ lines) := by
  have hiff : lines.contains l = true ↔ l ∈ lines := by
    simp [List.contains_iff_exists_mem_beq, beq_iff_eq]
  by_cases h : l ∈ lines
  · rw [decide_eq_true h]
    exact hiff.mpr h
  · rw [decide_eq_false h]
    exact Bool.eq_false_iff.mpr (fun hc => h (hiff.mp hc))

/-- With the start marker absent from every line, the marker-replacement walk
returns the lines unchanged (the `inside_block` flag never becomes true). -/
theorem rbmGo_no_start (startM endM : String) (nc : List String) (lines : List String)
    (h : ∀ l ∈ lines, strContains startM l = false) :
    rbmGo startM endM nc lines false = lines := by
  induction lines with
  | nil => rfl
  | cons l ls ih =>
    have hl : strContains startM l = false := h l (by simp)
    simp only [rbmGo, hl, Bool.false_eq_true, if_false, Bool.and_false,
      Bool.not_false, if_true]
    rw [ih (fun x hx => h x (by simp [hx]))]

/-- Unfolding equation of the replacement scan on a cons with fuel left. -/
theorem replaceFuel_cons (pat rep : List Char) (f : Nat) (c : Char) (cs : List Char) :
    replaceFuel pat rep (f + 1) (c :: cs) =
      if leadsWith pat (c :: cs) then rep ++ replaceFuel pat rep f ((c :: cs).drop pat.length)
      else c :: replaceFuel pat rep f cs := rfl

/-- On text with no occurrence of the pattern at any position, the replacement
scan is the identity. -/
theorem replaceFuel_no_occ (pat rep : List Char) :
    ∀ s fuel, s.length ≤ fuel → (∀ i, leadsWith pat (s.drop i) = false) →
      replaceFuel pat rep fuel s = s := by
  intro s
  induction s with
  | nil => intro fuel _ _; cases fuel <;> rfl
  | cons c cs ih =>
    intro fuel hf h
    cases fuel with
    | zero => simp at hf
    | succ f =>
      have h0 : leadsWith pat (c :: cs) = false := by simpa using h 0
      rw [replaceFuel_cons, if_neg (by rw [h0]; exact Bool.false_ne_true)]
      rw [ih f (by simpa using hf) (fun i => by simpa using h (i + 1))]

/-- On text with exactly one occurrence of the (non-empty) pattern — written
`p ++ pat ++ q`, occurring nowhere else — the replacement scan yields
`p ++ rep ++ q`. -/
theorem replaceFuel_unique (pat rep : List Char) (hp : pat ≠ []) :
    ∀ p q fuel, (p ++ pat ++ q).length ≤ fuel →
      (∀ i, leadsWith pat ((p ++ pat ++ q).drop i) = true → i = p.length) →
      replaceFuel pat rep fuel (p ++ pat ++ q) = p ++ rep ++ q := by
  intro p
  induction p with
  | nil =>
    intro q fuel hf hu
    simp only [List.nil_append, List.length_nil] at hf hu ⊢
    obtain ⟨a, pa, rfl⟩ : ∃ a pa, pat = a :: pa := by
      cases pat with
      | nil => exact absurd rfl hp
      | cons a pa => exact ⟨a, pa, rfl⟩
    cases fuel with
    | zero => simp at hf
    | succ f =>
      rw [List.cons_append, replaceFuel_cons,
        if_pos ((leadsWith_iff _ _).mpr ⟨q, by rw [List.cons_append]⟩)]
      congr 1
      have hdrop : (a :: (pa ++ q)).drop (a :: pa).length = q := by
        simp only [List.length_cons, List.drop_succ_cons]
        exact List.drop_left pa q
      rw [hdrop]
      apply replaceFuel_no_occ
      · simp only [List.cons_append, List.length_cons, List.length_append] at hf
        omega
      · intro i
        cases hb : leadsWith (a :: pa) (q.drop i) with
        | false => rfl
        | true =>
          have hd : ((a :: pa) ++ q).drop (i + (a :: pa).length) = q.drop i := by
            rw [Nat.add_comm, ← List.drop_drop, List.drop_left]
          have := hu (i + (a :: pa).length) (by rw [hd]; exact hb)
          simp at this
  | cons b p' ih =>
    intro q fuel hf hu
    simp only [List.cons_append] at hf hu ⊢
    cases fuel with
    | zero => simp at hf
    | succ f =>
      have hlw : leadsWith pat (b :: (p' ++ pat ++ q)) = false := by
        cases hb : leadsWith pat (b :: (p' ++ pat ++ q)) with
        | false => rfl
        | true =>
          have h0 := hu 0 (by simpa using hb)
          simp at h0
      rw [replaceFuel_cons, if_neg (by rw [hlw]; exact Bool.false_ne_true)]
      congr 1
      apply ih q f
      · simp only [List.length_cons] at hf
        omega
      · intro i hi
        have := hu (i + 1) (by simpa using hi)
        simp only [List.length_cons] at this
        omega

/-- A count of exactly one occurrence pins every occurrence position to the
exhibited one. -/
theorem unique_of_countOcc (pat p q : List Char) (hp : pat ≠ [])
    (hu : countOcc pat (p ++ pat ++ q) = 1) :
    ∀ i, leadsWith pat ((p ++ pat ++ q).drop i) = true → i = p.length := by
  intro i hi
  set s := p ++ pat ++ q with hs
  have hil : i ≤ s.length := by
    by_contra hgt
    have : s.drop i = [] := List.drop_eq_nil_of_le (by omega)
    rw [this] at hi
    cases pat with
    | nil => exact absurd rfl hp
    | cons a pa => simp [leadsWith] at hi
  have hpl : leadsWith pat (s.drop p.length) = true := by
    rw [hs, List.append_assoc, List.drop_left, leadsWith_iff]
    exact ⟨q, rfl⟩
  have hmem_i : i ∈ (List.range (s.length + 1)).filter
      (fun j => leadsWith pat (s.drop j)) :=
    List.mem_filter.mpr ⟨List.mem_range.mpr (by omega), hi⟩
  have hmem_p : p.length ∈ (List.range (s.length + 1)).filter
      (fun j => leadsWith pat (s.drop j)) := by
    refine List.mem_filter.mpr ⟨List.mem_range.mpr ?_, hpl⟩
    rw [hs]
    simp only [List.length_append]
    omega
  obtain ⟨x, hx⟩ := List.length_eq_one.mp hu
  rw [countOcc] at hu
  rw [hx] at hmem_i hmem_p
  simp only [List.mem_singleton] at hmem_i hmem_p
  omega

/-- The split scan never produces an empty list of parts. -/
theorem splitFuel_ne_nil (sep : List Char) (fuel : Nat) (s : List Char) :
    splitFuel sep fuel s ≠ [] := by
  cases fuel with
  | zero => simp [splitFuel]
  | succ f =>
    unfold splitFuel
    cases firstIdx sep s <;> simp

/-- Unfolding equation of the split scan when no separator occurs. -/
theorem splitFuel_succ_none (sep s : List Char) (f : Nat) (h : firstIdx sep s = none) :
    splitFuel sep (f + 1) s = [s] := by
  unfold splitFuel
  rw [h]

/-- Unfolding equation of the split scan at a found separator. -/
theorem splitFuel_succ_some (sep s : List Char) (f i : Nat) (h : firstIdx sep s = some i) :
    splitFuel sep (f + 1) s = s.take i :: splitFuel sep f (s.drop (i + sep.length)) := by
  conv_lhs => unfold splitFuel
  rw [h]

/-- A found first index decomposes the string around the separator. -/
theorem firstIdx_decomp (sep s : List Char) (i : Nat) (h : firstIdx sep s = some i) :
    s = s.take i ++ sep ++ s.drop (i + sep.length) := by
  have hp := List.find?_some h
  rw [leadsWith_iff] at hp
  obtain ⟨t, ht⟩ := hp
  have ht2 : s.drop (i + sep.length) = t := by
    calc s.drop (i + sep.length) = (s.drop i).drop sep.length := (List.drop_drop _ _ _).symm
      _ = (sep ++ t).drop sep.length := by rw [ht]
      _ = t := List.drop_left sep t
  rw [ht2, List.append_assoc, ← ht, List.take_append_drop]

/-- Joining the split: the head part, then each further part preceded by one
copy of the (non-empty) separator, reconstitutes the input. -/
theorem split_reconstruct (sep : List Char) (hsep : sep ≠ []) :
    ∀ fuel s, s.length < fuel →
      (splitFuel sep fuel s).headD [] ++
        (((splitFuel sep fuel s).drop 1).map (fun x => sep ++ x)).flatten = s := by
  intro fuel
  induction fuel with
  | zero => intro s h; omega
  | succ f ih =>
    intro s h
    cases hix : firstIdx sep s with
    | none => rw [splitFuel_succ_none sep s f hix]; simp
    | some i =>
      rw [splitFuel_succ_some sep s f i hix]
      have hdecomp := firstIdx_decomp sep s i hix
      have hsl : 1 ≤ sep.length := List.length_pos.mpr hsep
      have hlen : (s.drop (i + sep.length)).length + 1 ≤ s.length := by
        have := congrArg List.length hdecomp
        simp only [List.length_append] at this
        omega
      have hrec := ih (s.drop (i + sep.length)) (by omega)
      obtain ⟨h', t', hL⟩ : ∃ h' t', splitFuel sep f (s.drop (i + sep.length)) = h' :: t' := by
        cases hc : splitFuel sep f (s.drop (i + sep.length)) with
        | nil => exact absurd hc (splitFuel_ne_nil sep f _)
        | cons h' t' => exact ⟨h', t', rfl⟩
      rw [hL] at hrec ⊢
      simp only [List.headD_cons, List.drop_one, List.tail_cons, List.map_cons,
        List.flatten_cons] at hrec ⊢
      calc s.take i ++ ((sep ++ h') ++ (t'.map (fun x => sep ++ x)).flatten)
          = s.take i ++ sep ++ (h' ++ (t'.map (fun x => sep ++ x)).flatten) := by
            simp [List.append_assoc]
        _ = s.take i ++ sep ++ s.drop (i + sep.length) := by rw [hrec]
        _ = s := hdecomp.symm

/-- The filesystem outcome of one action step does not depend on the
incomplete-action accumulator. -/
theorem applyOneAction_fst (p bak : String) (fs : FS) (inc : List (String × PAction))
    (a : PAction) :
    (applyOneAction p bak (fs, inc) a).1 = (applyOneAction p bak (fs, []) a).1 := by
  unfold applyOneAction
  cases h : applyAction fs p a with
  | mk fs' r =>
    cases r with
    | ok b => cases b <;> rfl
    | error e => rfl

/-- One action step only ever appends to the incomplete-action accumulator. -/
theorem applyOneAction_snd (p bak : String) (fs : FS) (inc : List (String × PAction))
    (a : PAction) :
    (applyOneAction p bak (fs, inc) a).2 = inc ++ (applyOneAction p bak (fs, []) a).2 := by
  unfold applyOneAction
  cases h : applyAction fs p a with
  | mk fs' r =>
    cases r with
    | ok b => cases b <;> simp
    | error e => rfl

/-- The filesystem outcome of the action loop does not depend on the
incomplete-action accumulator. -/
theorem foldlActions_fst (p bak : String) :
    ∀ (acts : List PAction) (fs : FS) (inc : List (String × PAction)),
      (acts.foldl (applyOneAction p bak) (fs, inc)).1 =
        (acts.foldl (applyOneAction p bak) (fs, [])).1 := by
  intro acts
  induction acts with
  | nil => intro fs inc; rfl
  | cons a acts ih =>
    intro fs inc
    simp only [List.foldl_cons]
    rw [show applyOneAction p bak (fs, inc) a =
        ((applyOneAction p bak (fs, inc) a).1, (applyOneAction p bak (fs, inc) a).2) from rfl,
      show applyOneAction p bak (fs, []) a =
        ((applyOneAction p bak (fs, []) a).1, (applyOneAction p bak (fs, []) a).2) from rfl]
    rw [ih (applyOneAction p bak (fs, inc) a).1 (applyOneAction p bak (fs, inc) a).2,
      ih (applyOneAction p bak (fs, []) a).1 (applyOneAction p bak (fs, []) a).2]
    rw [applyOneAction_fst]

/-- The action loop only ever appends to the incomplete-action accumulator. -/
theorem foldlActions_snd (p bak : String) :
    ∀ (acts : List PAction) (fs : FS) (inc : List (String × PAction)),
      (acts.foldl (applyOneAction p bak) (fs, inc)).2 =
        inc ++ (acts.foldl (applyOneAction p bak) (fs, [])).2 := by
  intro acts
  induction acts with
  | nil => intro fs inc; simp
  | cons a acts ih =>
    intro fs inc
    simp only [List.foldl_cons]
    rw [show applyOneAction p bak (fs, inc) a =
        ((applyOneAction p bak (fs, inc) a).1, (applyOneAction p bak (fs, inc) a).2) from rfl,
      show applyOneAction p bak (fs, []) a =
        ((applyOneAction p bak (fs, []) a).1, (applyOneAction p bak (fs, []) a).2) from rfl]
    rw [ih (applyOneAction p bak (fs, inc) a).1 (applyOneAction p bak (fs, inc) a).2,
      ih (applyOneAction p bak (fs, []) a).1 (applyOneAction p bak (fs, []) a).2]
    rw [applyOneAction_fst, applyOneAction_snd, List.append_assoc]

/-- The filesystem outcome of one FileChange does not depend on the
incomplete-action accumulator. -/
theorem applyChange_fst (d : Bool) (st : FS × List (String × PAction))
    (ch : String × List PAction) :
    (applyChange d st ch).1 = (applyChange d (st.1, []) ch).1 := by
  unfold applyChange
  cases d with
  | true => rfl
  | false =>
    simp only [Bool.false_eq_true, if_false]
    cases h : st.1.files.lookup ch.1 with
    | none => exact foldlActions_fst ch.1 (ch.1 ++ ".bak") ch.2 st.1 st.2
    | some c => exact foldlActions_fst ch.1 (ch.1 ++ ".bak") ch.2 _ st.2

/-- One FileChange only ever appends to the incomplete-action accumulator. -/
theorem applyChange_snd (d : Bool) (st : FS × List (String × PAction))
    (ch : String × List PAction) :
    (applyChange d st ch).2 = st.2 ++ (applyChange d (st.1, []) ch).2 := by
  unfold applyChange
  cases d with
  | true => simp
  | false =>
    simp only [Bool.false_eq_true, if_false]
    cases h : st.1.files.lookup ch.1 with
    | none => exact foldlActions_snd ch.1 (ch.1 ++ ".bak") ch.2 st.1 st.2
    | some c => exact foldlActions_snd ch.1 (ch.1 ++ ".bak") ch.2 _ st.2

/-- The filesystem outcome of the change loop does not depend on the
incomplete-action accumulator. -/
theorem foldlChanges_fst (d : Bool) :
    ∀ (changes : List (String × List PAction)) (fs : FS) (inc : List (String × PAction)),
      (changes.foldl (applyChange d) (fs, inc)).1 =
        (changes.foldl (applyChange d) (fs, [])).1 := by
  intro changes
  induction changes with
  | nil => intro fs inc; rfl
  | cons ch changes ih =>
    intro fs inc
    simp only [List.foldl_cons]
    rw [show applyChange d (fs, inc) ch =
        ((applyChange d (fs, inc) ch).1, (applyChange d (fs, inc) ch).2) from rfl,
      show applyChange d (fs, []) ch =
        ((applyChange d (fs, []) ch).1, (applyChange d (fs, []) ch).2) from rfl]
    rw [ih (applyChange d (fs, inc) ch).1 (applyChange d (fs, inc) ch).2,
      ih (applyChange d (fs, []) ch).1 (applyChange d (fs, []) ch).2]
    rw [applyChange_fst]

/-- The change loop only ever appends to the incomplete-action accumulator. -/
theorem foldlChanges_snd (d : Bool) :
    ∀ (changes : List (String × List PAction)) (fs : FS) (inc : List (String × PAction)),
      (changes.foldl (applyChange d) (fs, inc)).2 =
        inc ++ (changes.foldl (applyChange d) (fs, [])).2 := by
  intro changes
  induction changes with
  | nil => intro fs inc; simp
  | cons ch changes ih =>
    intro fs inc
    simp only [List.foldl_cons]
    rw [show applyChange d (fs, inc) ch =
        ((applyChange d (fs, inc) ch).1, (applyChange d (fs, inc) ch).2) from rfl,
      show applyChange d (fs, []) ch =
        ((applyChange d (fs, []) ch).1, (applyChange d (fs, []) ch).2) from rfl]
    rw [ih (applyChange d (fs, inc) ch).1 (applyChange d (fs, inc) ch).2,
      ih (applyChange d (fs, []) ch).1 (applyChange d (fs, []) ch).2]
    rw [applyChange_fst, applyChange_snd, List.append_assoc]

/-! ## Claim theorems -/

/-- C1 (counterexample): a `ReplaceSection` whose start marker is present but
whose end marker is absent does mutate the file: `replace_between_markers`
splices the new content after the start line and drops every following line,
so the written content changes. -/
theorem c1_counterexample :
    replaceBetweenMarkers ["s", "t"] "s" "e" ["n"] = ["s", "n"] ∧
    replaceBetweenMarkers ["s", "t"] "s" "e" ["n"] ≠ ["s", "t"] ∧
    writeLines (replaceBetweenMarkers ["s", "t"] "s" "e" ["n"]) ≠ writeLines ["s", "t"] := by
  refine ⟨by decide, by decide, by decide⟩

/-- C1 (amended): a `ReplaceSection` with a `LiteralSpan` anchor that is absent
fails without producing new content, and a `MarkerPair` replacement whose start
marker is absent from every line leaves the lines unchanged; but when the start
marker is present and the end marker absent, the file is mutated (tail lines
dropped), and the legacy marker engine reports no incompleteness. -/
theorem c1_amended (text orig : String) (newLines : List String)
    (lines : List String) (startM endM : String) (nc : List String)
    (h1 : strContains orig text = false)
    (h2 : ∀ l ∈ lines, strContains startM l = false) :
    replaceSectionStr text orig newLines = none ∧
    replaceBetweenMarkers lines startM endM nc = lines := by
  constructor
  · unfold replaceSectionStr replaceSectionPure
    unfold strContains at h1
    rw [h1]
    rfl
  · exact rbmGo_no_start startM endM nc lines h2

/-- C1 (witness): the amended statement at concrete inputs. -/
theorem c1_amended_witness :
    (strContains "x" "ab" = false ∧ ∀ l ∈ (["a", "b"] : List String), strContains "s" l = false) ∧
    (replaceSectionStr "ab" "x" ["y"] = none ∧
      replaceBetweenMarkers ["a", "b"] "s" "e" ["n"] = ["a", "b"]) :=
  ⟨⟨by decide, by decide⟩, c1_amended "ab" "x" ["y"] ["a", "b"] "s" "e" ["n"] (by decide) (by decide)⟩

/-- C2 (counterexample): an exception while applying the first action of a
FileChange (a `replace_section` on a missing file) does not make the
orchestrator move to the next FileChange: the remaining action of the same
FileChange (`create_file`) is still applied, so the file exists with its
content afterwards, while the failing action is duly recorded. -/
theorem c2_counterexample :
    (applyModifications
        [("f.txt", [PAction.replaceSection "x" ["y"], PAction.createFile ["z"]])]
        false ⟨[], []⟩).1.files.lookup "f.txt" = some "z\n" ∧
    (applyModifications
        [("f.txt", [PAction.replaceSection "x" ["y"], PAction.createFile ["z"]])]
        false ⟨[], []⟩).2 = [("f.txt", PAction.replaceSection "x" ["y"])] := by
  refine ⟨by decide, by decide⟩

/-- C2 (amended): on an action-level exception the orchestrator records the
action (with its file), restores the file from its backup if one exists, and
then continues with the remaining actions of the same FileChange — not with
the next FileChange. -/
theorem c2_amended (p bak : String) (fs : FS) (inc : List (String × PAction))
    (a : PAction) (rest : List PAction)
    (h : (applyAction fs p a).2 = Except.error ()) :
    (a :: rest).foldl (applyOneAction p bak) (fs, inc) =
      rest.foldl (applyOneAction p bak)
        (restoreBak (applyAction fs p a).1 p bak, inc ++ [(p, a)]) := by
  simp only [List.foldl_cons]
  congr 1
  unfold applyOneAction
  have hx : applyAction fs p a = ((applyAction fs p a).1, Except.error ()) := by
    rw [← h]
  rw [hx]

/-- C2 (witness): the amended statement at a concrete exception — a
`replace_section` on a file that does not exist. -/
theorem c2_amended_witness :
    ((applyAction ⟨[], []⟩ "f.txt" (PAction.replaceSection "x" ["y"])).2 = Except.error ()) ∧
    ([PAction.replaceSection "x" ["y"], PAction.createFile ["z"]].foldl
        (applyOneAction "f.txt" "f.txt.bak") (⟨[], []⟩, []) =
      [PAction.createFile ["z"]].foldl (applyOneAction "f.txt" "f.txt.bak")
        (restoreBak (applyAction ⟨[], []⟩ "f.txt" (PAction.replaceSection "x" ["y"])).1
          "f.txt" "f.txt.bak",
         [] ++ [("f.txt", PAction.replaceSection "x" ["y"])])) :=
  ⟨rfl, c2_amended "f.txt" "f.txt.bak" ⟨[], []⟩ [] (PAction.replaceSection "x" ["y"])
    [PAction.createFile ["z"]] rfl⟩

/-- C3 (counterexample): on the spec's concrete scenario the engine does not
produce `a\n# BEGIN\nx\n# END\nc\n`: the marker lines are always kept as
context and the supplied content repeats them, so they are duplicated. -/
theorem c3_counterexample :
    writeLines (replaceBetweenMarkers (pySplitlines "a\n# BEGIN\nb\n# END\nc\n")
      "# BEGIN" "# END" ["# BEGIN", "x", "# END"]) ≠ "a\n# BEGIN\nx\n# END\nc\n" := by
  decide

/-- C3 (amended): the scenario instead yields the content with both marker
lines duplicated, `a\n# BEGIN\n# BEGIN\nx\n# END\n# END\nc\n`. -/
theorem c3_amended :
    writeLines (replaceBetweenMarkers (pySplitlines "a\n# BEGIN\nb\n# END\nc\n")
      "# BEGIN" "# END" ["# BEGIN", "x", "# END"]) =
      "a\n# BEGIN\n# BEGIN\nx\n# END\n# END\nc\n" := by
  decide

/-- C4 (counterexample): with two sentinel occurrences, the parser keeps the
envelope between the first and the second sentinel (`a.py`) — an envelope
located before the last occurrence — and drops the envelope after the last
occurrence (`b.py`), contradicting "only the text after the last occurrence
is considered". -/
theorem c4_counterexample :
    parseCustomFormat
        "a</think>[aibuilder_change file=\"a.py\"]</think>[aibuilder_change file=\"b.py\"]" =
      [("a.py", [])] ∧
    (parseCustomFormat
        "a</think>[aibuilder_change file=\"a.py\"]</think>[aibuilder_change file=\"b.py\"]").map
        Prod.fst ≠ ["b.py"] := by
  refine ⟨by decide, by decide⟩

/-- The sentinel-stripping step keeps exactly the second part of the Python
split: the text between the first sentinel occurrence and the next one (or
the end of the payload). -/
theorem thinkCut_of_split (c pre mid : List Char) (rest : List (List Char))
    (h : pySplit thinkTag c = pre :: mid :: rest) :
    thinkCut c = mid := by
  have hrec := split_reconstruct thinkTag (by decide) (c.length + 1) c (by omega)
  rw [show splitFuel thinkTag (c.length + 1) c = pySplit thinkTag c from rfl] at hrec
  rw [h] at hrec
  simp only [List.headD_cons, List.drop_one, List.tail_cons, List.map_cons,
    List.flatten_cons] at hrec
  have hcontains : listContains thinkTag c = true := by
    rw [← hrec]
    have hmid := listContains_mid pre thinkTag
      (mid ++ (rest.map (fun x => thinkTag ++ x)).flatten)
    simpa [List.append_assoc] using hmid
  unfold thinkCut
  rw [hcontains, h]
  simp

/-- C4 (amended): the parser considers only `split("</think>")[1]` — the text
strictly between the first occurrence of the sentinel and the following
occurrence (or the payload end).  Envelopes before the first occurrence or
after the second, including everything after the last occurrence when there
are more than two, do not appear. -/
theorem c4_amended (content : String) (pre mid : List Char) (rest : List (List Char))
    (h : pySplit thinkTag content.toList = pre :: mid :: rest) :
    parseCustomFormat content = parseFromCut mid := by
  unfold parseCustomFormat
  rw [thinkCut_of_split content.toList pre mid rest h]

/-- C4 (witness): the amended statement at the concrete two-sentinel payload. -/
theorem c4_amended_witness :
    pySplit thinkTag
        "a</think>[aibuilder_change file=\"x.py\"]</think>tail".toList =
      "a".toList :: "[aibuilder_change file=\"x.py\"]".toList :: ["tail".toList] ∧
    parseCustomFormat "a</think>[aibuilder_change file=\"x.py\"]</think>tail" =
      parseFromCut "[aibuilder_change file=\"x.py\"]".toList :=
  ⟨by decide,
    c4_amended "a</think>[aibuilder_change file=\"x.py\"]</think>tail"
      "a".toList "[aibuilder_change file=\"x.py\"]".toList ["tail".toList] (by decide)⟩

/-- C5: on a file whose text contains exactly one occurrence of
`original_text` — text `p ++ X ++ q`, `X` occurring nowhere else —
`_replace_section` succeeds and produces exactly `p` + the joined new lines +
`q`: the occurrence is substituted, every other byte is unchanged. -/
theorem c5_literal_span_round_trip (text pat : List Char) (newLines : List String)
    (p q : List Char) (hs : text = p ++ pat ++ q) (hu : countOcc pat text = 1) :
    replaceSectionPure text pat newLines = some (p ++ joinNlChars newLines ++ q) := by
  subst hs
  unfold replaceSectionPure
  rw [if_pos (listContains_mid p pat q)]
  congr 1
  cases pat with
  | nil =>
    have hall : ∀ i ∈ List.range ((p ++ [] ++ q).length + 1),
        leadsWith ([] : List Char) ((p ++ [] ++ q).drop i) = true := fun i _ => rfl
    have hcount : countOcc ([] : List Char) (p ++ [] ++ q) = (p ++ [] ++ q).length + 1 := by
      unfold countOcc
      rw [List.filter_eq_self.mpr hall, List.length_range]
    have hp0 : p.length = 0 ∧ q.length = 0 := by
      rw [hcount] at hu
      simp only [List.length_append, List.length_nil] at hu
      omega
    obtain ⟨rfl, rfl⟩ : p = [] ∧ q = [] :=
      ⟨List.eq_nil_of_length_eq_zero hp0.1, List.eq_nil_of_length_eq_zero hp0.2⟩
    simp [replacePy]
  | cons a pa =>
    unfold replacePy
    exact replaceFuel_unique (a :: pa) (joinNlChars newLines) (by simp) p q _ le_rfl
      (unique_of_countOcc (a :: pa) p q (by simp) hu)

/-- C5 (witness): the round trip at a concrete one-occurrence input. -/
theorem c5_witness :
    ("q X r".toList = "q ".toList ++ "X".toList ++ " r".toList) ∧
    countOcc "X".toList "q X r".toList = 1 ∧
    replaceSectionPure "q X r".toList "X".toList ["y", "z"] =
      some ("q ".toList ++ joinNlChars ["y", "z"] ++ " r".toList) :=
  ⟨by decide, by decide,
    c5_literal_span_round_trip "q X r".toList "X".toList ["y", "z"] "q ".toList " r".toList
      (by decide) (by decide)⟩

/-- C6: a `remove_file` whose target does not exist returns success=false —
not an exception — and the orchestrator records it as incomplete and carries
on: the run on the remaining FileChanges proceeds exactly as it would from the
post-`makedirs` state, with the failed removal prepended to the incomplete
list. -/
theorem c6_remove_missing_continues (p : String) (rest : List (String × List PAction))
    (fs : FS) (h : fs.files.lookup p = none) :
    (applyAction fs p PAction.removeFile).2 = Except.ok false ∧
    applyModifications ((p, [PAction.removeFile]) :: rest) false fs =
      ((applyModifications rest false (addDirs fs p)).1,
        (p, PAction.removeFile) :: (applyModifications rest false (addDirs fs p)).2) := by
  have haddlookup : (addDirs fs p).files.lookup p = none := h
  have ha : applyAction fs p PAction.removeFile = (addDirs fs p, Except.ok false) := by
    simp only [applyAction]
    rw [haddlookup]
  refine ⟨by rw [ha], ?_⟩
  unfold applyModifications
  simp only [List.foldl_cons]
  have hchange : applyChange false (fs, []) (p, [PAction.removeFile]) =
      (addDirs fs p, [(p, PAction.removeFile)]) := by
    unfold applyChange
    simp only [Bool.false_eq_true, if_false]
    rw [h]
    simp only [List.foldl_cons, List.foldl_nil]
    unfold applyOneAction
    rw [ha]
    rfl
  rw [hchange]
  refine Prod.ext ?_ ?_
  · exact foldlChanges_fst false rest (addDirs fs p) [(p, PAction.removeFile)]
  · rw [foldlChanges_snd false rest (addDirs fs p) [(p, PAction.removeFile)]]
    rfl

/-- C6 (witness): the statement at a concrete state with a missing target and
a subsequent FileChange. -/
theorem c6_witness :
    (FS.files ⟨[("g.txt", "hi")], []⟩).lookup "f.txt" = none ∧
    ((applyAction ⟨[("g.txt", "hi")], []⟩ "f.txt" PAction.removeFile).2 = Except.ok false ∧
      applyModifications [("f.txt", [PAction.removeFile]), ("h.txt", [PAction.createFile ["w"]])]
          false ⟨[("g.txt", "hi")], []⟩ =
        ((applyModifications [("h.txt", [PAction.createFile ["w"]])] false
            (addDirs ⟨[("g.txt", "hi")], []⟩ "f.txt")).1,
          ("f.txt", PAction.removeFile) ::
            (applyModifications [("h.txt", [PAction.createFile ["w"]])] false
              (addDirs ⟨[("g.txt", "hi")], []⟩ "f.txt")).2)) :=
  ⟨by decide, c6_remove_missing_continues "f.txt" [("h.txt", [PAction.createFile ["w"]])]
    ⟨[("g.txt", "hi")], []⟩ (by decide)⟩

/-- C7: the legacy append/prepend actions skip exactly the content lines
already present verbatim in the file and splice the remaining ones, in their
original order, at the end resp. the start. -/
theorem c7_legacy_append_prepend_dedup (lines content : List String) :
    legacyAppend lines content = lines ++ content.filter (fun l => decide (l ∉ lines)) ∧
    legacyPrepend lines content = content.filter (fun l => decide (l ∉ lines)) ++ lines := by
  have hf : content.filter (fun l => !(lines.contains l)) =
      content.filter (fun l => decide (l ∉ lines)) := by
    apply List.filter_congr
    intro a _
    rw [contains_eq_mem]
    by_cases h : a ∈ lines <;> simp [h]
  exact ⟨by rw [legacyAppend, hf], by rw [legacyPrepend, hf]⟩

/-- C8: the diff splitter cuts the payload at each `diff --git` occurrence:
every written fragment begins with `diff --git`, the fragments concatenated
reconstitute the payload minus the text before the first boundary (which is
exactly the head part of the split and appears in no fragment), and there is
one fragment per split part after that head. -/
theorem c8_diff_splitter (content : List Char) :
    (∀ f ∈ splitPatchFile content, leadsWith sepDiff f = true) ∧
    (pySplit sepDiff content).headD [] ++ (splitPatchFile content).flatten = content ∧
    (splitPatchFile content).length = (pySplit sepDiff content).length - 1 := by
  refine ⟨?_, ?_, ?_⟩
  · intro f hf
    obtain ⟨p, _, rfl⟩ := List.mem_map.mp hf
    rw [leadsWith_iff]
    exact ⟨p, rfl⟩
  · have h := split_reconstruct sepDiff (by decide) (content.length + 1) content (by omega)
    simpa only [pySplit, splitPatchFile] using h
  · simp [splitPatchFile, pySplit]

/-- C8 (witness): the splitter properties at a concrete two-boundary payload
with a discarded preamble. -/
theorem c8_witness :
    ("diff --gitA ".toList ∈ splitPatchFile "pre diff --gitA diff --gitB".toList ∧
      leadsWith sepDiff "diff --gitA ".toList = true) ∧
    (pySplit sepDiff "pre diff --gitA diff --gitB".toList).headD [] ++
      (splitPatchFile "pre diff --gitA diff --gitB".toList).flatten =
      "pre diff --gitA diff --gitB".toList ∧
    (splitPatchFile "pre diff --gitA diff --gitB".toList).length =
      (pySplit sepDiff "pre diff --gitA diff --gitB".toList).length - 1 :=
  ⟨⟨by decide, (c8_diff_splitter "pre diff --gitA diff --gitB".toList).1
      "diff --gitA ".toList (by decide)⟩,
    (c8_diff_splitter "pre diff --gitA diff --gitB".toList).2.1,
    (c8_diff_splitter "pre diff --gitA diff --gitB".toList).2.2⟩

/-- C9: `regex_replace` and `replace_line_containing` rewrite each line in
place and never insert or delete a line: the output always has exactly as many
lines as the input, for every pattern, replacement and substring. -/
theorem c9_line_count_preserved (reSub : String → String → String → String)
    (pattern replacement matchSubstring replacementLine : String)
    (lines : List String) :
    (regexReplace reSub pattern replacement lines).length = lines.length ∧
    (replaceLineContaining matchSubstring replacementLine lines).length = lines.length := by
  constructor <;> simp [regexReplace, replaceLineContaining]

/-- C10: for every action kind — `create_file`, `remove_file`, `replace_file`
and `replace_section`, whatever their outcome — `_apply_action` first runs
`os.makedirs(os.path.dirname(filepath), exist_ok=True)`: the directory set
afterwards is always the old one extended by the missing ancestors of the
target path, even when the action then fails or only deletes a file. -/
theorem c10_makedirs_always (fs : FS) (p : String) (a : PAction) :
    (applyAction fs p a).1.dirs =
      fs.dirs ++ (ancestors p).filter (fun d => !(fs.dirs.contains d)) := by
  cases a with
  | createFile content => rfl
  | removeFile =>
    simp only [applyAction]
    split <;> rfl
  | replaceFile content => rfl
  | replaceSection orig content =>
    simp only [applyAction]
    split
    · rfl
    · split <;> rfl

end AIBuilder
